import Mathlib

/-!
Shallow embedding of the block encoding and layered iterator core of the
mini-lsm storage engine (files src/block.rs, src/block/builder.rs,
src/lsm_iterator.rs), together with theorems settling the specification
claims about it.

Bytes are modelled as Nat values (the u8 range is tracked by hypotheses
where it matters); u16 casts wrap modulo 2^16 exactly as Rust `as u16`
does.  Fallible operations (Rust panics on slice indexing) are modelled
with Option.
-/

namespace MiniLsm

/-- Big-endian serialization of a value cast to u16, as produced by
Rust's `put_u16(x as u16)`: two bytes, high then low, wrapping mod 2^16. -/
def u16be (n : Nat) : List Nat := [n / 256 % 256, n % 256]

/-- A block: raw entry data plus the offset index (`Block` in block.rs).
Offsets are u16 in Rust; here Nat, with the range tracked by hypotheses. -/
structure Block where
  data : List Nat
  offsets : List Nat
deriving DecidableEq

/-- `Block::encode`: data, then each offset as big-endian u16, then the
element count as a final big-endian u16. -/
def Block.encode (b : Block) : List Nat :=
  b.data ++ b.offsets.flatMap u16be ++ u16be b.offsets.length

/-- Reads a big-endian u16 from a two-byte list (helper for decode,
mirroring `get_u16` / `u16::from_be_bytes`). -/
def readU16 : List Nat → Nat
  | [a, b] => a * 256 + b
  | _ => 0

/-- Parses consecutive big-endian u16 values from a byte list, two bytes
per value, dropping a trailing odd byte (mirroring `chunks_exact(2)`). -/
def readOffsets : List Nat → List Nat
  | a :: b :: rest => (a * 256 + b) :: readOffsets rest
  | _ => []

/-- `Block::decode`: reads the last two bytes as the element count n, the
2n bytes before them as the offset array, and the rest as data.  The Rust
code panics (slice out of range / usize underflow) when the buffer is
shorter than 2 + 2n bytes; that failure is modelled as `none`. -/
def Block.decode (bs : List Nat) : Option Block :=
  if bs.length < 2 then none
  else
    let n := readU16 (bs.drop (bs.length - 2))
    if bs.length < 2 + 2 * n then none
    else
      let dataEnd := bs.length - 2 - 2 * n
      some { data := bs.take dataEnd
             offsets := readOffsets ((bs.drop dataEnd).take (2 * n)) }

/-- The element count `Block::decode` reads from a buffer's last two
bytes (defined for buffers of length at least 2; 0 otherwise). -/
def decodeCount (bs : List Nat) : Nat := readU16 (bs.drop (bs.length - 2))

/-- `BlockBuilder` state (builder.rs). -/
structure BlockBuilder where
  offsets : List Nat
  data : List Nat
  block_size : Nat
  first_key : List Nat
deriving DecidableEq

/-- `BlockBuilder::new`. -/
def BlockBuilder.new (block_size : Nat) : BlockBuilder :=
  { offsets := [], data := [], block_size := block_size, first_key := [] }

/-- `BlockBuilder::is_empty`. -/
def BlockBuilder.is_empty (b : BlockBuilder) : Bool := b.offsets.isEmpty

/-- `BlockBuilder::compute_key_overlap`: byte-wise longest common start
of `first_key` and the key, stopping at the first mismatch or the end of
the shorter of the two. -/
def compute_key_overlap : List Nat → List Nat → Nat
  | a :: as, b :: bs => if a = b then compute_key_overlap as bs + 1 else 0
  | _, _ => 0

/-- `BlockBuilder::add`.  Returns the updated builder and the Bool the
Rust method returns.  The size check, the appended byte layout, the
offset push (`data.len() as u16`, wrapping) and the late capture of
`first_key` (guarded by `first_key.is_empty()`, not by entry count)
follow builder.rs line by line. -/
def BlockBuilder.add (b : BlockBuilder) (key value : List Nat) :
    BlockBuilder × Bool :=
  if !b.is_empty &&
      decide (b.data.length + b.offsets.length * 2 + 2 +
        key.length + value.length + 3 * 2 > b.block_size) then
    (b, false)
  else
    let overlap := compute_key_overlap b.first_key key
    ({ offsets := b.offsets ++ [b.data.length % 65536]
       data := b.data ++ u16be overlap ++ u16be (key.length - overlap) ++
         key.drop overlap ++ u16be value.length ++ value
       block_size := b.block_size
       first_key := if b.first_key.isEmpty then key else b.first_key },
     true)

/-- `BlockBuilder::build`. -/
def BlockBuilder.build (b : BlockBuilder) : Block :=
  { data := b.data, offsets := b.offsets }

/-- Folds a sequence of `add` calls over a builder, keeping the updated
state whether or not each call was accepted. -/
def addAll : BlockBuilder → List (List Nat × List Nat) → BlockBuilder
  | b, [] => b
  | b, (k, v) :: rest => addAll (b.add k v).1 rest

/-- Lexicographic strict order on byte strings, as Rust compares
`&[u8]` slices with `<`. -/
def bytesLt : List Nat → List Nat → Bool
  | _, [] => false
  | [], _ :: _ => true
  | a :: as, b :: bs => a < b || (a = b && bytesLt as bs)

/-- Lexicographic order on byte strings, as Rust compares `&[u8]`
slices with `<=`. -/
def bytesLe : List Nat → List Nat → Bool
  | [], _ => true
  | _ :: _, [] => false
  | a :: as, b :: bs => a < b || (a = b && bytesLe as bs)

/-- The end bound of a scan (`Bound<Bytes>` in lsm_iterator.rs). -/
inductive EndBound where
  | unbounded
  | included (key : List Nat)
  | excluded (key : List Nat)
deriving DecidableEq

/-- `LsmIterator` state.  The inner merged iterator is modelled as the
list of its remaining entries: `is_valid` of the inner iterator is
nonemptiness, `key`/`value` read the head, `next` drops the head. -/
structure LsmState where
  inner : List (List Nat × List Nat)
  endBound : EndBound
  valid : Bool
deriving DecidableEq

/-- The inner iterator's current key (head of the remaining entries). -/
def keyAt (s : LsmState) : List Nat :=
  match s.inner with
  | [] => []
  | e :: _ => e.1

/-- The inner iterator's current value (head of the remaining entries). -/
def valueAt (s : LsmState) : List Nat :=
  match s.inner with
  | [] => []
  | e :: _ => e.2

/-- `LsmIterator::next_inner`: advance the inner iterator; if it became
invalid, clear the validity flag; otherwise recompute the flag from the
end bound (Unbounded leaves it unchanged). -/
def nextInner (s : LsmState) : LsmState :=
  match s.inner.tail with
  | [] => { inner := [], endBound := s.endBound, valid := false }
  | e :: rest =>
      { inner := e :: rest
        endBound := s.endBound
        valid :=
          match s.endBound with
          | .unbounded => s.valid
          | .included key => bytesLe e.1 key
          | .excluded key => bytesLt e.1 key }

/-- One unfolding step of `LsmIterator::skip_deleted`'s while loop, fuel
bounded.  The loop advances while the validity flag is set and the
current value is empty; each iteration drops one inner entry, so
`inner.length` fuel runs the loop to completion (see `skipDeleted`). -/
def skipDeletedAux : Nat → LsmState → LsmState
  | 0, s => s
  | fuel + 1, s =>
      if s.valid && (valueAt s).isEmpty then skipDeletedAux fuel (nextInner s)
      else s

/-- `LsmIterator::skip_deleted`. -/
def skipDeleted (s : LsmState) : LsmState := skipDeletedAux s.inner.length s

/-- `LsmIterator::new`: capture the inner iterator's validity, then skip
tombstones.  (The Rust constructor returns `Result`; with the inner
iterator modelled as a pure list its advance never fails, so
construction always succeeds.) -/
def lsmNew (inner : List (List Nat × List Nat)) (endBound : EndBound) :
    LsmState :=
  skipDeleted { inner := inner, endBound := endBound, valid := !inner.isEmpty }

/-- `LsmIterator::next` (the `StorageIterator` impl): `next_inner` then
`skip_deleted`. -/
def lsmNext (s : LsmState) : LsmState := skipDeleted (nextInner s)

/-- Whether a key satisfies the end bound, the way `next_inner` tests it. -/
def withinBound (eb : EndBound) (k : List Nat) : Bool :=
  match eb with
  | .unbounded => true
  | .included key => bytesLe k key
  | .excluded key => bytesLt k key

/-- Strictly ascending keys for the inner entry stream. -/
def ascKeys (es : List (List Nat × List Nat)) : Prop :=
  List.Chain' (fun e f => bytesLt e.1 f.1 = true) es

/-- The interface a wrapped `StorageIterator` offers to `FusedIterator`:
a validity query and a fallible advance, here state passing with an
optional error of type ε. -/
structure IterOps (σ : Type) (ε : Type) where
  is_valid : σ → Bool
  next : σ → σ × Option ε

/-- Errors observable from `FusedIterator::next`: an error propagated
from the wrapped iterator's advance, or the distinct invalid-operation
error raised on use after an error. -/
inductive FusedErr (ε : Type) where
  | inner (e : ε)
  | invalidOp
deriving DecidableEq

/-- `FusedIterator` state: the wrapped iterator plus the sticky error
flag. -/
structure FusedState (σ : Type) where
  iter : σ
  has_errored : Bool
deriving DecidableEq

/-- `FusedIterator::is_valid`. -/
def fusedIsValid (ops : IterOps σ ε) (s : FusedState σ) : Bool :=
  !s.has_errored && ops.is_valid s.iter

/-- `FusedIterator::next`: returns the updated state and the error the
Rust method returns, if any. -/
def fusedNext (ops : IterOps σ ε) (s : FusedState σ) :
    FusedState σ × Option (FusedErr ε) :=
  if s.has_errored then (s, some .invalidOp)
  else if ops.is_valid s.iter then
    match ops.next s.iter with
    | (i, some e) => ({ iter := i, has_errored := true }, some (.inner e))
    | (i, none) => ({ iter := i, has_errored := false }, none)
  else (s, none)

/-- The state transition of `FusedIterator::next`. -/
def fusedStep (ops : IterOps σ ε) (s : FusedState σ) : FusedState σ :=
  (fusedNext ops s).1

/-! ### Helper lemmas about the block encoding -/

theorem length_flatMap_u16be (l : List Nat) :
    (l.flatMap u16be).length = 2 * l.length := by
  induction l with
  | nil => rfl
  | cons a as ih => simp [u16be, ih]; omega

theorem encode_length (b : Block) :
    b.encode.length = b.data.length + 2 * b.offsets.length + 2 := by
  have h := length_flatMap_u16be b.offsets
  simp only [Block.encode, List.length_append, h, u16be, List.length_cons,
    List.length_nil]

theorem add_block_size (b : BlockBuilder) (k v : List Nat) :
    ((b.add k v).1).block_size = b.block_size := by
  unfold BlockBuilder.add
  split <;> rfl

theorem addAll_block_size (es : List (List Nat × List Nat)) :
    ∀ b : BlockBuilder, (addAll b es).block_size = b.block_size := by
  induction es with
  | nil => intro b; rfl
  | cons e rest ih =>
      intro b
      obtain ⟨k, v⟩ := e
      simpa [addAll, add_block_size] using ih (b.add k v).1

/-- The length of the encoding of the block a builder state would build. -/
def encodedLen (b : BlockBuilder) : Nat :=
  b.data.length + 2 * b.offsets.length + 2

theorem add_encodedLen_le (b : BlockBuilder) (k v : List Nat)
    (hne : b.offsets ≠ []) (hacc : (b.add k v).2 = true) :
    encodedLen (b.add k v).1 ≤ b.block_size + 2 := by
  have hemp : b.is_empty = false := by
    simp [BlockBuilder.is_empty, List.isEmpty_iff, hne]
  unfold BlockBuilder.add at hacc ⊢
  split at hacc
  · exact absurd hacc (by simp)
  · rename_i hc
    rw [if_neg hc]
    have harith : b.data.length + b.offsets.length * 2 + 2 +
        k.length + v.length + 3 * 2 ≤ b.block_size := by
      by_contra hgt
      apply hc
      rw [hemp]
      simp only [Bool.not_false, Bool.true_and, decide_eq_true_eq]
      omega
    have hov : k.length - compute_key_overlap b.first_key k ≤ k.length :=
      Nat.sub_le _ _
    simp only [encodedLen, List.length_append, List.length_drop, u16be,
      List.length_cons, List.length_nil]
    omega

theorem add_offsets_length (b : BlockBuilder) (k v : List Nat) :
    ((b.add k v).1).offsets.length = b.offsets.length ∨
    (((b.add k v).1).offsets.length = b.offsets.length + 1 ∧
      (b.add k v).2 = true) := by
  unfold BlockBuilder.add
  split
  · exact Or.inl rfl
  · exact Or.inr ⟨by simp, rfl⟩

/-- Inductive size invariant: a builder with at least two entries never
exceeds its budget by more than the 2 offset-slot bytes the size check
omits. -/
theorem addAll_size_inv (es : List (List Nat × List Nat)) :
    ∀ b : BlockBuilder,
      (2 ≤ b.offsets.length → encodedLen b ≤ b.block_size + 2) →
      (2 ≤ (addAll b es).offsets.length →
        encodedLen (addAll b es) ≤ (addAll b es).block_size + 2) := by
  induction es with
  | nil => intro b h; exact h
  | cons e rest ih =>
      intro b hb
      obtain ⟨k, v⟩ := e
      show 2 ≤ (addAll (b.add k v).1 rest).offsets.length →
        encodedLen (addAll (b.add k v).1 rest) ≤
          (addAll (b.add k v).1 rest).block_size + 2
      refine ih (b.add k v).1 ?_
      intro h2
      rw [add_block_size]
      by_cases hne : b.offsets = []
      · exfalso
        rcases add_offsets_length b k v with h | ⟨h, _⟩ <;>
          rw [hne] at h <;> simp only [List.length_nil] at h <;> omega
      · by_cases hacc : (b.add k v).2 = true
        · exact add_encodedLen_le b k v hne hacc
        · have : (b.add k v).1 = b := by
            unfold BlockBuilder.add at hacc ⊢
            split at hacc
            · rename_i hc
              rw [if_pos hc]
            · exact absurd rfl hacc
          rw [this] at h2 ⊢
          exact hb h2

/-! ### Claim theorems: BlockBuilder and Block -/

/-- C1 (counterexample): with block_size 18, the adds of keys [97] and
[98] with empty values are both accepted, leaving two entries, yet the
built Block's encode() output has length 20 > 18.  The size check omits
the 2 bytes the new entry adds to the offset array. -/
theorem c1_size_budget_counterexample :
    ((BlockBuilder.new 18).add [97] []).2 = true ∧
    (((BlockBuilder.new 18).add [97] []).1.add [98] []).2 = true ∧
    (addAll (BlockBuilder.new 18) [([97], []), ([98], [])]).offsets.length = 2 ∧
    ((addAll (BlockBuilder.new 18) [([97], []), ([98], [])]).build.encode).length
      = 20 ∧
    ¬ ((addAll (BlockBuilder.new 18) [([97], []), ([98], [])]).build.encode).length
      ≤ 18 := by
  decide

/-- C1 (amended): for every sequence of BlockBuilder::add calls that
leaves the builder with two or more entries, the built Block's encode()
output length does not exceed block_size + 2 (the size check counts the
new entry's key, value and three 2-byte fixed fields but not the 2-byte
offset-array slot, so an accepted add can overshoot the budget by up to
2 bytes). -/
theorem c1_size_budget (bs : Nat) (es : List (List Nat × List Nat))
    (h2 : 2 ≤ (addAll (BlockBuilder.new bs) es).offsets.length) :
    ((addAll (BlockBuilder.new bs) es).build.encode).length ≤ bs + 2 := by
  have hinv := addAll_size_inv es (BlockBuilder.new bs)
    (by intro h; simp [BlockBuilder.new] at h) h2
  rw [addAll_block_size] at hinv
  have henc : ((addAll (BlockBuilder.new bs) es).build.encode).length =
      encodedLen (addAll (BlockBuilder.new bs) es) := by
    rw [encode_length]
    rfl
  rw [henc]
  exact hinv

/-- C1 (witness for the amended theorem): two small entries under budget
100 leave two entries and an encoding of 20 ≤ 102 bytes. -/
theorem c1_size_budget_witness :
    2 ≤ (addAll (BlockBuilder.new 100) [([97], []), ([98], [])]).offsets.length ∧
    ((addAll (BlockBuilder.new 100) [([97], []), ([98], [])]).build.encode).length
      ≤ 100 + 2 :=
  ⟨by decide, c1_size_budget 100 [([97], []), ([98], [])] (by decide)⟩

theorem add_on_empty_accepted (b : BlockBuilder) (key value : List Nat)
    (h : b.is_empty = true) : (b.add key value).2 = true := by
  unfold BlockBuilder.add
  rw [h]
  simp

/-- C6: on an empty builder (no entries added yet), add returns true for
every key and value, regardless of their sizes relative to block_size. -/
theorem c6_first_add_always_accepted (b : BlockBuilder) (key value : List Nat)
    (h : b.is_empty = true) : (b.add key value).2 = true :=
  add_on_empty_accepted b key value h

/-- C6 (witness): a builder with block_size 0 still accepts a 5-byte
entry as its first. -/
theorem c6_first_add_always_accepted_witness :
    (BlockBuilder.new 0).is_empty = true ∧
    ((BlockBuilder.new 0).add [1, 2, 3] [4, 5]).2 = true :=
  ⟨by decide, c6_first_add_always_accepted (BlockBuilder.new 0) [1, 2, 3] [4, 5]
    (by decide)⟩

/-- C8: Block::decode fails (the Rust code panics on slice indexing,
modelled as none) on every buffer of length at least 2 that is shorter
than 2 + 2n bytes, where n is the element count read from the buffer's
last 2 bytes; the failure is the result of decode itself, not recovered
inside it. -/
theorem c8_decode_short_buffer_fails (bs : List Nat) (h2 : 2 ≤ bs.length)
    (hshort : bs.length < 2 + 2 * decodeCount bs) : Block.decode bs = none := by
  unfold Block.decode
  rw [if_neg (by omega)]
  simp only
  rw [if_pos]
  exact hshort

/-- C8 (witness): the buffer [0, 5] declares 5 elements but has only 2
bytes, and decode returns none on it. -/
theorem c8_decode_short_buffer_fails_witness :
    2 ≤ ([0, 5] : List Nat).length ∧
    ([0, 5] : List Nat).length < 2 + 2 * decodeCount [0, 5] ∧
    Block.decode [0, 5] = none :=
  ⟨by decide, by decide, c8_decode_short_buffer_fails [0, 5] (by decide) (by decide)⟩

/-- C10: BlockBuilder::add's acceptance never looks at the key's content
or order: whenever the size check passes (current data length + 2 per
offset + 2 + key length + value length + 6 within block_size), add
returns true — for any key whatsoever, including duplicates of or keys
smaller than previously added ones.  (If the builder is empty, add
accepts unconditionally, see C6.) -/
theorem c10_add_ignores_key_order (b : BlockBuilder) (key value : List Nat)
    (hsize : b.data.length + b.offsets.length * 2 + 2 +
      key.length + value.length + 3 * 2 ≤ b.block_size) :
    (b.add key value).2 = true := by
  unfold BlockBuilder.add
  rw [if_neg]
  intro hc
  rcases Bool.and_eq_true_iff.mp hc with ⟨-, hd⟩
  rw [decide_eq_true_eq] at hd
  omega

/-- C10 (witness): after adding key [98], the builder accepts the
lexicographically smaller key [97] (and would equally accept [98]
again): the size check is all that is consulted. -/
theorem c10_add_ignores_key_order_witness :
    (((BlockBuilder.new 100).add [98] [7]).1.data.length +
      ((BlockBuilder.new 100).add [98] [7]).1.offsets.length * 2 + 2 +
      ([97] : List Nat).length + ([9] : List Nat).length + 3 * 2 ≤
      ((BlockBuilder.new 100).add [98] [7]).1.block_size) ∧
    ((((BlockBuilder.new 100).add [98] [7]).1).add [97] [9]).2 = true :=
  ⟨by decide, c10_add_ignores_key_order ((BlockBuilder.new 100).add [98] [7]).1
    [97] [9] (by decide)⟩

/-! ### Round-trip lemmas -/

theorem readU16_u16be (n : Nat) (h : n < 65536) : readU16 (u16be n) = n := by
  simp only [readU16, u16be]
  omega

theorem readOffsets_flatMap (l : List Nat) (h : ∀ o ∈ l, o < 65536) :
    readOffsets (l.flatMap u16be) = l := by
  induction l with
  | nil => rfl
  | cons a as ih =>
      have ha : a < 65536 := h a (List.mem_cons_self a as)
      have hrest : ∀ o ∈ as, o < 65536 := fun o ho => h o (List.mem_cons_of_mem a ho)
      show readOffsets (u16be a ++ as.flatMap u16be) = a :: as
      simp only [u16be, List.cons_append, List.nil_append, List.append_nil,
        readOffsets, List.append_eq]
      rw [ih hrest]
      congr 1
      omega

/-- C2: for every Block with fewer than 65536 offsets (each a u16 value,
as the Rust field type Vec of u16 guarantees), decoding the encoding
recovers exactly the original data and offsets fields. -/
theorem c2_encode_decode_roundtrip (b : Block)
    (hm : b.offsets.length < 65536) (ho : ∀ o ∈ b.offsets, o < 65536) :
    Block.decode b.encode = some b := by
  have hlen : b.encode.length = b.data.length + 2 * b.offsets.length + 2 :=
    encode_length b
  have hflat : (b.offsets.flatMap u16be).length = 2 * b.offsets.length :=
    length_flatMap_u16be b.offsets
  have hcnt : b.encode.drop (b.encode.length - 2) = u16be b.offsets.length := by
    have hassoc : b.encode = (b.data ++ b.offsets.flatMap u16be) ++
        u16be b.offsets.length := by
      simp [Block.encode]
    rw [hassoc, List.drop_left']
    simp only [List.length_append, hflat, u16be, List.length_cons,
      List.length_nil]
    omega
  have hn : readU16 (b.encode.drop (b.encode.length - 2)) = b.offsets.length := by
    rw [hcnt, readU16_u16be _ hm]
  unfold Block.decode
  rw [if_neg (by omega)]
  simp only [hn]
  rw [if_neg (by omega)]
  have hde : b.encode.length - 2 - 2 * b.offsets.length = b.data.length := by
    omega
  rw [hde]
  have hsplit : b.encode = b.data ++
      (b.offsets.flatMap u16be ++ u16be b.offsets.length) := by
    simp [Block.encode]
  have htake : b.encode.take b.data.length = b.data := by
    rw [hsplit]
    exact List.take_left _ _
  have hdrop : b.encode.drop b.data.length =
      b.offsets.flatMap u16be ++ u16be b.offsets.length := by
    rw [hsplit]
    exact List.drop_left _ _
  rw [htake, hdrop, List.take_left' hflat, readOffsets_flatMap _ ho]

/-- C2 (witness): a concrete two-offset block round-trips. -/
theorem c2_encode_decode_roundtrip_witness :
    (⟨[0, 0, 0, 1, 97, 0, 0], [0, 7]⟩ : Block).offsets.length < 65536 ∧
    (∀ o ∈ (⟨[0, 0, 0, 1, 97, 0, 0], [0, 7]⟩ : Block).offsets, o < 65536) ∧
    Block.decode (⟨[0, 0, 0, 1, 97, 0, 0], [0, 7]⟩ : Block).encode =
      some ⟨[0, 0, 0, 1, 97, 0, 0], [0, 7]⟩ :=
  ⟨by decide, by decide,
    c2_encode_decode_roundtrip ⟨[0, 0, 0, 1, 97, 0, 0], [0, 7]⟩
      (by decide) (by decide)⟩

/-! ### Claim theorems: LsmIterator -/

/-- C9: LsmIterator::new does not check the initial position against the
end bound: for the inner stream [([1],[7])] with end bound Excluded([1]),
the freshly constructed iterator reports is_valid() = true while its
current key [1] is not strictly below the bound [1] — the bound is only
evaluated inside next_inner. -/
theorem c9_new_skips_bound_check :
    (lsmNew [([1], [7])] (.excluded [1])).valid = true ∧
    keyAt (lsmNew [([1], [7])] (.excluded [1])) = [1] ∧
    withinBound (EndBound.excluded [1])
      (keyAt (lsmNew [([1], [7])] (.excluded [1]))) = false := by
  decide

/-- A state whose validity flag guarantees a nonempty inner stream and a
nonempty current value — the invariant skip_deleted establishes. -/
def lsmGood (s : LsmState) : Prop :=
  s.valid = true → s.inner ≠ [] ∧ valueAt s ≠ []

theorem nextInner_pre (s : LsmState) :
    (nextInner s).valid = true → (nextInner s).inner ≠ [] := by
  unfold nextInner
  cases h : s.inner.tail <;> simp

theorem skipDeletedAux_good (fuel : Nat) :
    ∀ s : LsmState, (s.valid = true → s.inner ≠ []) →
      s.inner.length ≤ fuel → lsmGood (skipDeletedAux fuel s) := by
  induction fuel with
  | zero =>
      intro s hpre hlen hv
      exact absurd (hpre hv) (by
        have : s.inner = [] := List.length_eq_zero.mp (Nat.le_zero.mp hlen)
        simp [this])
  | succ n ih =>
      intro s hpre hlen
      unfold skipDeletedAux
      by_cases hc : (s.valid && (valueAt s).isEmpty) = true
      · rw [if_pos hc]
        rcases Bool.and_eq_true_iff.mp hc with ⟨hv, _⟩
        obtain ⟨e, rest, hin⟩ := List.exists_cons_of_ne_nil (hpre hv)
        refine ih (nextInner s) (nextInner_pre s) ?_
        have htail : s.inner.tail = rest := by rw [hin]; rfl
        unfold nextInner
        rw [htail]
        cases rest with
        | nil => simp
        | cons f fs =>
            simp only [List.length_cons]
            have : s.inner.length = fs.length + 1 + 1 := by
              rw [hin]; simp
            omega
      · rw [if_neg hc]
        intro hv
        refine ⟨hpre hv, ?_⟩
        intro hval
        exact hc (by rw [hv, hval]; rfl)

theorem skipDeleted_good (s : LsmState) (hpre : s.valid = true → s.inner ≠ []) :
    lsmGood (skipDeleted s) :=
  skipDeletedAux_good s.inner.length s hpre le_rfl

theorem lsmNew_good (entries : List (List Nat × List Nat)) (eb : EndBound) :
    lsmGood (lsmNew entries eb) := by
  refine skipDeleted_good _ ?_
  intro hv
  simpa [List.isEmpty_iff] using hv

theorem lsmNext_good (s : LsmState) : lsmGood (lsmNext s) :=
  skipDeleted_good _ (nextInner_pre s)

/-- C3: for every inner entry stream, end bound, and number of next()
calls, whenever the LsmIterator reports is_valid() = true its current
value is non-empty: no caller ever observes a tombstone. -/
theorem c3_no_tombstone_observed (entries : List (List Nat × List Nat))
    (eb : EndBound) (n : Nat)
    (hv : (lsmNext^[n] (lsmNew entries eb)).valid = true) :
    valueAt (lsmNext^[n] (lsmNew entries eb)) ≠ [] := by
  cases n with
  | zero => exact ((lsmNew_good entries eb) hv).2
  | succ m =>
      rw [Function.iterate_succ_apply'] at hv ⊢
      exact ((lsmNext_good _) hv).2

/-- C3 (witness): the stream [(a,x),(b,tombstone),(c,y)] after one next()
is valid and shows the non-empty value y. -/
theorem c3_no_tombstone_observed_witness :
    (lsmNext^[1] (lsmNew [([97], [120]), ([98], []), ([99], [121])]
      .unbounded)).valid = true ∧
    valueAt (lsmNext^[1] (lsmNew [([97], [120]), ([98], []), ([99], [121])]
      .unbounded)) ≠ [] :=
  ⟨by decide, c3_no_tombstone_observed [([97], [120]), ([98], []), ([99], [121])]
    .unbounded 1 (by decide)⟩

/-! ### Lexicographic order lemmas -/

theorem bytesLt_trans : ∀ a b c : List Nat,
    bytesLt a b = true → bytesLt b c = true → bytesLt a c = true := by
  intro a
  induction a with
  | nil =>
      intro b c hab hbc
      cases b with
      | nil => simp [bytesLt] at hab
      | cons y ys =>
          cases c with
          | nil => simp [bytesLt] at hbc
          | cons z zs => simp [bytesLt]
  | cons x xs ih =>
      intro b c hab hbc
      cases b with
      | nil => simp [bytesLt] at hab
      | cons y ys =>
          cases c with
          | nil => simp [bytesLt] at hbc
          | cons z zs =>
              simp only [bytesLt, Bool.or_eq_true, Bool.and_eq_true,
                decide_eq_true_eq] at hab hbc ⊢
              rcases hab with h1 | ⟨he1, h2⟩ <;> rcases hbc with h3 | ⟨he3, h4⟩
              · exact Or.inl (by omega)
              · exact Or.inl (by omega)
              · exact Or.inl (by omega)
              · exact Or.inr ⟨by omega, ih ys zs h2 h4⟩

theorem bytesLt_le_trans : ∀ a b c : List Nat,
    bytesLt a b = true → bytesLe b c = true → bytesLe a c = true := by
  intro a
  induction a with
  | nil => intro b c _ _; simp [bytesLe]
  | cons x xs ih =>
      intro b c hab hbc
      cases b with
      | nil => simp [bytesLt] at hab
      | cons y ys =>
          cases c with
          | nil => simp [bytesLe] at hbc
          | cons z zs =>
              simp only [bytesLt, bytesLe, Bool.or_eq_true, Bool.and_eq_true,
                decide_eq_true_eq] at hab hbc ⊢
              rcases hab with h1 | ⟨he1, h2⟩ <;> rcases hbc with h3 | ⟨he3, h4⟩
              · exact Or.inl (by omega)
              · exact Or.inl (by omega)
              · exact Or.inl (by omega)
              · exact Or.inr ⟨by omega, ih ys zs h2 h4⟩

/-! ### Bound-permanence machinery -/

theorem skipDeleted_of_invalid (s : LsmState) (h : s.valid = false) :
    skipDeleted s = s := by
  unfold skipDeleted
  cases s.inner.length with
  | zero => rfl
  | succ n =>
      unfold skipDeletedAux
      rw [if_neg]
      simp [h]

/-- The dead-by-bound configurations: validity is off and either the
inner stream is exhausted or the current key already violates the end
bound (with strictly ascending keys these configurations are closed
under next()). -/
def deadBound (s : LsmState) : Prop :=
  ascKeys s.inner ∧ s.valid = false ∧
    (s.inner = [] ∨ withinBound s.endBound (keyAt s) = false)

theorem deadBound_step (s : LsmState) (h : deadBound s) :
    deadBound (lsmNext s) := by
  obtain ⟨hasc, hval, hdis⟩ := h
  cases hin : s.inner with
  | nil =>
      have htail : s.inner.tail = [] := by rw [hin]; rfl
      unfold lsmNext nextInner
      rw [htail]
      rw [skipDeleted_of_invalid _ rfl]
      exact ⟨by simp [ascKeys], rfl, Or.inl rfl⟩
  | cons e rest =>
      cases rest with
      | nil =>
          have htail : s.inner.tail = [] := by rw [hin]; rfl
          unfold lsmNext nextInner
          rw [htail]
          rw [skipDeleted_of_invalid _ rfl]
          exact ⟨by simp [ascKeys], rfl, Or.inl rfl⟩
      | cons f fs =>
          have htail : s.inner.tail = f :: fs := by rw [hin]; rfl
          have hviol : withinBound s.endBound e.1 = false := by
            rcases hdis with h | h
            · rw [hin] at h; exact absurd h (by simp)
            · have hks : keyAt s = e.1 := by
                unfold keyAt
                rw [hin]
              rw [hks] at h
              exact h
          have hlt : bytesLt e.1 f.1 = true := by
            rw [hin] at hasc
            exact (List.chain'_cons.mp hasc).1
          have hviol2 : withinBound s.endBound f.1 = false := by
            cases heb : s.endBound with
            | unbounded => rw [heb] at hviol; simp [withinBound] at hviol
            | included key =>
                rw [heb] at hviol
                simp only [withinBound] at hviol ⊢
                cases hle : bytesLe f.1 key
                · rfl
                · exact absurd (bytesLt_le_trans _ _ _ hlt hle)
                    (by rw [hviol]; simp)
            | excluded key =>
                rw [heb] at hviol
                simp only [withinBound] at hviol ⊢
                cases hle : bytesLt f.1 key
                · rfl
                · exact absurd (bytesLt_trans _ _ _ hlt hle)
                    (by rw [hviol]; simp)
          have hvalid2 : (nextInner s).valid = false := by
            unfold nextInner
            rw [htail]
            cases heb : s.endBound with
            | unbounded => simpa using hval
            | included key =>
                rw [heb] at hviol2
                simpa [withinBound] using hviol2
            | excluded key =>
                rw [heb] at hviol2
                simpa [withinBound] using hviol2
          have hinner2 : (nextInner s).inner = f :: fs := by
            unfold nextInner
            rw [htail]
          have hkey : keyAt (nextInner s) = f.1 := by
            unfold keyAt
            rw [hinner2]
          have hebeq : (nextInner s).endBound = s.endBound := by
            unfold nextInner
            rw [htail]
          unfold lsmNext
          rw [skipDeleted_of_invalid _ hvalid2]
          refine ⟨?_, hvalid2, Or.inr ?_⟩
          · rw [ascKeys, hinner2]
            rw [hin] at hasc
            exact (List.chain'_cons.mp hasc).2
          · rw [hebeq, hkey]
            exact hviol2

theorem deadBound_iterate (n : Nat) :
    ∀ s : LsmState, deadBound s → deadBound (lsmNext^[n] s) := by
  induction n with
  | zero => intro s h; exact h
  | succ m ih =>
      intro s h
      rw [Function.iterate_succ_apply]
      exact ih _ (deadBound_step s h)

/-- C4: after every inner advance that leaves the inner iterator
non-exhausted, validity is recomputed against the end bound exactly as
the claim states (Unbounded leaves it as it was, Included(b) requires
key ≤ b, Excluded(b) requires key < b); and, when the inner keys are
strictly ascending, once the iterator is invalid with its current key
violating the bound (or the stream exhausted), every number of further
next() calls leaves it invalid. -/
theorem c4_bound_recompute_and_permanence (s : LsmState) :
    ((nextInner s).inner ≠ [] →
      (nextInner s).valid =
        (match s.endBound with
          | EndBound.unbounded => s.valid
          | EndBound.included key => bytesLe (keyAt (nextInner s)) key
          | EndBound.excluded key => bytesLt (keyAt (nextInner s)) key)) ∧
    (ascKeys s.inner → s.valid = false →
      (s.inner = [] ∨ withinBound s.endBound (keyAt s) = false) →
      ∀ n, (lsmNext^[n] s).valid = false) := by
  constructor
  · intro hne
    cases h : s.inner.tail with
    | nil =>
        unfold nextInner at hne
        rw [h] at hne
        exact absurd rfl hne
    | cons e rest =>
        cases heb : s.endBound <;> simp [nextInner, h, keyAt, heb]
  · intro hasc hval hdis n
    exact (deadBound_iterate n s ⟨hasc, hval, hdis⟩).2.1

/-- C4 (witness): keys [3] then [4] with end bound Excluded([2]): the
advance recomputes validity as key < [2] (false here), and from the
dead state two further next() calls stay invalid. -/
theorem c4_bound_recompute_and_permanence_witness :
    ((nextInner ⟨[([3], [1]), ([4], [1])], .excluded [2], false⟩).valid =
      bytesLt (keyAt (nextInner ⟨[([3], [1]), ([4], [1])], .excluded [2],
        false⟩)) [2]) ∧
    (lsmNext^[2] (⟨[([3], [1]), ([4], [1])], .excluded [2], false⟩ :
      LsmState)).valid = false :=
  ⟨(c4_bound_recompute_and_permanence
      ⟨[([3], [1]), ([4], [1])], .excluded [2], false⟩).1 (by decide),
   (c4_bound_recompute_and_permanence
      ⟨[([3], [1]), ([4], [1])], .excluded [2], false⟩).2
      (by simp [ascKeys, List.chain'_cons]; decide)
      (by decide) (by decide) 2⟩

/-! ### Claim theorems: FusedIterator -/

theorem fusedNext_of_errored (ops : IterOps σ ε) (s : FusedState σ)
    (h : s.has_errored = true) :
    fusedNext ops s = (s, some FusedErr.invalidOp) := by
  unfold fusedNext
  rw [if_pos h]

theorem fusedStep_iterate_of_errored (ops : IterOps σ ε) (s : FusedState σ)
    (h : s.has_errored = true) (n : Nat) : (fusedStep ops)^[n] s = s := by
  induction n with
  | zero => rfl
  | succ m ih =>
      rw [Function.iterate_succ_apply]
      have hstep : fusedStep ops s = s := by
        unfold fusedStep
        rw [fusedNext_of_errored ops s h]
      rw [hstep, ih]

/-- C5: once a FusedIterator next() call has surfaced an error from the
wrapped iterator, every later state equals the post-error state (so the
wrapped iterator's next is never invoked again), is_valid() is false,
and every subsequent next() returns the invalid-operation error, which
is distinct from the propagated original error. -/
theorem c5_fused_error_permanence {σ ε : Type} (ops : IterOps σ ε)
    (s t : FusedState σ) (e : ε)
    (herr : fusedNext ops s = (t, some (FusedErr.inner e))) (n : Nat) :
    (fusedStep ops)^[n] t = t ∧
    fusedIsValid ops ((fusedStep ops)^[n] t) = false ∧
    fusedNext ops ((fusedStep ops)^[n] t) =
      ((fusedStep ops)^[n] t, some FusedErr.invalidOp) ∧
    (FusedErr.invalidOp : FusedErr ε) ≠ FusedErr.inner e := by
  have hte : t.has_errored = true := by
    unfold fusedNext at herr
    split at herr
    · rw [Prod.mk.injEq] at herr
      exact absurd herr.2 (by simp)
    · split at herr
      · split at herr
        · rw [Prod.mk.injEq] at herr
          rw [← herr.1]
        · rw [Prod.mk.injEq] at herr
          exact absurd herr.2 (by simp)
      · rw [Prod.mk.injEq] at herr
        exact absurd herr.2 (by simp)
  have hit := fusedStep_iterate_of_errored ops t hte n
  refine ⟨hit, ?_, ?_, by simp⟩
  · rw [hit]
    unfold fusedIsValid
    rw [hte]
    rfl
  · rw [hit]
    exact fusedNext_of_errored ops t hte

/-- A concrete wrapped iterator whose advance always reports an error. -/
def opsDemo : IterOps Nat Nat :=
  { is_valid := fun _ => true, next := fun n => (n + 1, some 7) }

/-- C5 (witness): from state 0 the first next() surfaces the wrapped
error 7; three further steps leave the state fixed, invalid, and
answering with the invalid-operation error. -/
theorem c5_fused_error_permanence_witness :
    (fusedStep opsDemo)^[3] ⟨1, true⟩ = (⟨1, true⟩ : FusedState Nat) ∧
    fusedIsValid opsDemo ((fusedStep opsDemo)^[3] ⟨1, true⟩) = false ∧
    fusedNext opsDemo ((fusedStep opsDemo)^[3] ⟨1, true⟩) =
      ((fusedStep opsDemo)^[3] ⟨1, true⟩, some FusedErr.invalidOp) ∧
    (FusedErr.invalidOp : FusedErr Nat) ≠ FusedErr.inner 7 :=
  c5_fused_error_permanence opsDemo ⟨0, false⟩ ⟨1, true⟩ 7 rfl 3

/-! ### Claim C7: entry layout and key-overlap semantics -/

theorem compute_key_overlap_nil (k : List Nat) : compute_key_overlap [] k = 0 := by
  cases k <;> rfl

/-- `compute_key_overlap a b` is the byte-wise longest common start of a
and b: both lists agree on that many leading bytes, and it is maximal
(it reaches the end of one of them or hits a mismatch). -/
theorem compute_key_overlap_spec : ∀ a b : List Nat,
    b.take (compute_key_overlap a b) = a.take (compute_key_overlap a b) ∧
    (compute_key_overlap a b = a.length ∨ compute_key_overlap a b = b.length ∨
      b.getD (compute_key_overlap a b) 0 ≠ a.getD (compute_key_overlap a b) 0) := by
  intro a
  induction a with
  | nil =>
      intro b
      rw [compute_key_overlap_nil]
      exact ⟨rfl, Or.inl rfl⟩
  | cons x xs ih =>
      intro b
      cases b with
      | nil => exact ⟨rfl, Or.inr (Or.inl rfl)⟩
      | cons y ys =>
          by_cases hxy : x = y
          · have hck : compute_key_overlap (x :: xs) (y :: ys) =
                compute_key_overlap xs ys + 1 := by
              simp [compute_key_overlap, hxy]
            obtain ⟨h1, h2⟩ := ih ys
            rw [hck]
            constructor
            · rw [List.take_succ_cons, List.take_succ_cons, h1, hxy]
            · rcases h2 with h | h | h
              · exact Or.inl (by simp [h])
              · exact Or.inr (Or.inl (by simp [h]))
              · exact Or.inr (Or.inr (by simpa [List.getD_cons_succ] using h))
          · have hck : compute_key_overlap (x :: xs) (y :: ys) = 0 := by
              simp [compute_key_overlap, hxy]
            rw [hck]
            refine ⟨rfl, Or.inr (Or.inr ?_)⟩
            simp only [List.getD_cons_zero]
            exact fun h => hxy h.symm

theorem add_data_of_accepted (b : BlockBuilder) (k v : List Nat)
    (hacc : (b.add k v).2 = true) :
    (b.add k v).1.data = b.data ++ u16be (compute_key_overlap b.first_key k) ++
      u16be (k.length - compute_key_overlap b.first_key k) ++
      k.drop (compute_key_overlap b.first_key k) ++ u16be v.length ++ v := by
  unfold BlockBuilder.add at hacc ⊢
  split at hacc
  · exact absurd hacc (by simp)
  · rename_i hc
    rw [if_neg hc]

theorem add_first_key_of_ne (b : BlockBuilder) (k v : List Nat)
    (h : b.first_key ≠ []) : ((b.add k v).1).first_key = b.first_key := by
  have hf : b.first_key.isEmpty = false := by
    rw [← Bool.not_eq_true]
    simp [List.isEmpty_iff, h]
  unfold BlockBuilder.add
  split
  · rfl
  · simp [hf]

theorem addAll_first_key (es : List (List Nat × List Nat)) :
    ∀ b : BlockBuilder, b.first_key ≠ [] →
      (addAll b es).first_key = b.first_key := by
  induction es with
  | nil => intro b _; rfl
  | cons e rest ih =>
      intro b hb
      obtain ⟨k, v⟩ := e
      show (addAll (b.add k v).1 rest).first_key = b.first_key
      rw [ih (b.add k v).1 (by rw [add_first_key_of_ne b k v hb]; exact hb),
        add_first_key_of_ne b k v hb]

theorem new_add_first_key (bs : Nat) (k v : List Nat) :
    ((BlockBuilder.new bs).add k v).1.first_key = k := by
  unfold BlockBuilder.add BlockBuilder.new BlockBuilder.is_empty
  simp

/-- C7 (counterexample): with first key "apple" and second key
"application", the second entry's stored overlap is 4 ("appl"), not 5,
and its stored suffix is "ication", not "lication"; moreover, after
adding an empty key first and then key [97], the builder's recorded
first_key is [97] — not the block's first key [] — so the next entry's
overlap is computed as 1 where the claim's rule gives 0. -/
theorem c7_entry_layout_counterexample :
    (((BlockBuilder.new 100).add [97, 112, 112, 108, 101] [120]).1.add
        [97, 112, 112, 108, 105, 99, 97, 116, 105, 111, 110] [121]).2 = true ∧
    (((((BlockBuilder.new 100).add [97, 112, 112, 108, 101] [120]).1.add
        [97, 112, 112, 108, 105, 99, 97, 116, 105, 111, 110] [121]).1.data.drop
        12).take 2) = u16be 4 ∧
    u16be 4 ≠ u16be 5 ∧
    (((((BlockBuilder.new 100).add [97, 112, 112, 108, 101] [120]).1.add
        [97, 112, 112, 108, 105, 99, 97, 116, 105, 111, 110] [121]).1.data.drop
        16).take 7) = [105, 99, 97, 116, 105, 111, 110] ∧
    ((((BlockBuilder.new 100).add [] [1]).1.add [97] [1]).1).first_key = [97] ∧
    compute_key_overlap
      ((((BlockBuilder.new 100).add [] [1]).1.add [97] [1]).1).first_key
      [97, 98] = 1 := by
  decide

/-- C7 (amended): for every accepted add into a builder whose first
added key is nonempty, the appended bytes are
overlap(2B) | suffix_len(2B) | key[overlap..] | value_len(2B) | value,
where overlap is the byte-wise longest common start of the added key and
the block's first key (it is 0 for the first entry, whose layout is
stated unconditionally); with first key "apple" and second key
"application" the stored overlap is 4 and the stored suffix "ication". -/
theorem c7_entry_layout (bs : Nat) (k0 v0 key value : List Nat)
    (rest : List (List Nat × List Nat)) (hk0 : k0 ≠ [])
    (hacc : ((addAll (BlockBuilder.new bs) ((k0, v0) :: rest)).add key value).2
      = true) :
    ((addAll (BlockBuilder.new bs) ((k0, v0) :: rest)).add key value).1.data =
      (addAll (BlockBuilder.new bs) ((k0, v0) :: rest)).data ++
        u16be (compute_key_overlap k0 key) ++
        u16be (key.length - compute_key_overlap k0 key) ++
        key.drop (compute_key_overlap k0 key) ++
        u16be value.length ++ value ∧
    key.take (compute_key_overlap k0 key) =
      k0.take (compute_key_overlap k0 key) ∧
    (compute_key_overlap k0 key = k0.length ∨
      compute_key_overlap k0 key = key.length ∨
      key.getD (compute_key_overlap k0 key) 0 ≠
        k0.getD (compute_key_overlap k0 key) 0) ∧
    ((BlockBuilder.new bs).add key value).1.data =
      u16be 0 ++ u16be key.length ++ key ++ u16be value.length ++ value := by
  have hfk : (addAll (BlockBuilder.new bs) ((k0, v0) :: rest)).first_key = k0 := by
    show (addAll ((BlockBuilder.new bs).add k0 v0).1 rest).first_key = k0
    rw [addAll_first_key rest _ (by rw [new_add_first_key]; exact hk0),
      new_add_first_key]
  obtain ⟨h1, h2⟩ := compute_key_overlap_spec k0 key
  refine ⟨?_, h1, h2, ?_⟩
  · have := add_data_of_accepted (addAll (BlockBuilder.new bs) ((k0, v0) :: rest))
      key value hacc
    rw [hfk] at this
    exact this
  · have hacc0 : ((BlockBuilder.new bs).add key value).2 = true :=
      add_on_empty_accepted _ _ _ rfl
    have := add_data_of_accepted (BlockBuilder.new bs) key value hacc0
    rw [show (BlockBuilder.new bs).first_key = [] from rfl,
      compute_key_overlap_nil] at this
    simpa using this

/-- C7 (witness for the amended theorem): the apple/application block:
the second entry is stored as overlap 4, suffix length 7, suffix
"ication", value length 1, value [121]. -/
theorem c7_entry_layout_witness :
    ([97, 112, 112, 108, 101] : List Nat) ≠ [] ∧
    ((addAll (BlockBuilder.new 100) [([97, 112, 112, 108, 101], [120])]).add
      [97, 112, 112, 108, 105, 99, 97, 116, 105, 111, 110] [121]).2 = true ∧
    ((addAll (BlockBuilder.new 100) [([97, 112, 112, 108, 101], [120])]).add
        [97, 112, 112, 108, 105, 99, 97, 116, 105, 111, 110] [121]).1.data =
      (addAll (BlockBuilder.new 100) [([97, 112, 112, 108, 101], [120])]).data ++
        u16be (compute_key_overlap [97, 112, 112, 108, 101]
          [97, 112, 112, 108, 105, 99, 97, 116, 105, 111, 110]) ++
        u16be (([97, 112, 112, 108, 105, 99, 97, 116, 105, 111, 110] :
            List Nat).length -
          compute_key_overlap [97, 112, 112, 108, 101]
            [97, 112, 112, 108, 105, 99, 97, 116, 105, 111, 110]) ++
        ([97, 112, 112, 108, 105, 99, 97, 116, 105, 111, 110] : List Nat).drop
          (compute_key_overlap [97, 112, 112, 108, 101]
            [97, 112, 112, 108, 105, 99, 97, 116, 105, 111, 110]) ++
        u16be ([121] : List Nat).length ++ [121] :=
  ⟨by decide, by decide,
    (c7_entry_layout 100 [97, 112, 112, 108, 101] [120]
      [97, 112, 112, 108, 105, 99, 97, 116, 105, 111, 110] [121] []
      (by decide) (by decide)).1⟩

end MiniLsm
